import Mathlib

/-!
Verification development for the PyCoin transaction engine
(`src/lib/TransactionManager/transaction.py`).

The Python source is shallowly embedded: byte strings are `List Nat`
(each entry a byte value), Python `None` becomes `Option`, raised
exceptions become `Option`/`Except` failures, and the external
collaborators (the `Crypto` RSA/SHA library, the `db` Ledger module and
the `keystore` module, none of which are under `src/`) are modelled
explicitly as documented on each definition.  Multi-byte integer fields
use the platform's native byte order in the source (`struct.pack('I')`);
the model fixes little-endian, the order of every mainstream platform,
and no theorem below depends on the choice.
-/

namespace PyCoin

/-- Modelled from the spec: SHA-256 digests (external `Crypto.Hash`
library, not part of this repository).  The development relies only on
the digest being a deterministic injective function of the message, the
standard idealization of a collision-free hash, so the digest is
modelled as an injective executable function on byte strings. -/
def sha256 (msg : List Nat) : List Nat := 2 :: msg

/-- Modelled from the spec: a PKCS1 v1.5 signature produced by `signer.sign(message)`
over a SHA-256 `message` digest (external `Crypto.Signature` library).
A signature is modelled as the signer's public material together with
the signed digest, so that verification succeeds exactly for the
matching key and message. -/
def signBytes (ownerPub : List Nat) (digest : List Nat) : List Nat :=
  ownerPub ++ digest

/-- Modelled from the spec: `KeyStore.getPrivateKey()` (the `keystore`
module is not under `src/`), the process-wide default signing identity.
Key pairs are identified by their public material, so the default key is
a fixed constant byte string. -/
def defaultKeyPair : List Nat := [0]

/-- The 32-zero-byte coinbase sentinel, `bytes(struct.pack('I', 0) * 8)`
in the source. -/
def zeros32 : List Nat := List.replicate 32 0

/-- The 4-byte little-endian byte decomposition of `v`. -/
def u32le (v : Nat) : List Nat :=
  [v % 256, v / 256 % 256, v / 65536 % 256, v / 16777216 % 256]

/-- `struct.pack('I', v)`: the 4-byte unsigned 32-bit encoding of `v`
(native order, modelled little-endian); `none` when `v` is out of range,
modelling the `struct.error` raised by Python. -/
def packU32 (v : Nat) : Option (List Nat) :=
  if v < 4294967296 then some (u32le v) else none

/-- `struct.pack('B', v)`: the 1-byte encoding of `v`; `none` when `v`
is out of the byte range, modelling the `struct.error` raised by Python. -/
def packU8 (v : Nat) : Option (List Nat) :=
  if v < 256 then some [v] else none

/-- `struct.unpack_from('B', buf, off)`: read one byte at offset `off`;
`none` when the buffer is too short (Python raises `struct.error`). -/
def readU8 (buf : List Nat) (off : Nat) : Option Nat :=
  match buf.drop off with
  | b :: _ => some b
  | [] => none

/-- `struct.unpack_from('I', buf, off)`: read a 4-byte unsigned 32-bit
integer at offset `off` (native order, modelled little-endian); `none`
when fewer than 4 bytes remain (Python raises `struct.error`). -/
def readU32 (buf : List Nat) (off : Nat) : Option Nat :=
  match buf.drop off with
  | b0 :: b1 :: b2 :: b3 :: _ => some (b0 + 256 * b1 + 65536 * b2 + 16777216 * b3)
  | _ => none

/-- The Python slice `buf[off : off + len]`: never fails, silently
returning fewer than `len` bytes when the buffer ends early. -/
def bytesAt (buf : List Nat) (off len : Nat) : List Nat :=
  (buf.drop off).take len

/-- Modelled from the spec: an unspent-output record as returned by
`Ledger.getUnspentOutputs` (the `db` module is not under `src/`): the
spendable value, the 32-byte hash of the producing transaction, the
1-based output index within it, and the recipient's public key, exactly
the fields the source reads off such records (`o.value`, `o.transaction`,
`o.n`, `o.pubKey`). -/
structure UOut where
  value : Nat
  transaction : List Nat
  n : Nat
  pubKey : List Nat
deriving DecidableEq, Repr

/-- `Transaction.Input` (`transaction.py` lines 257–330): declared value,
32-byte previous transaction hash, previous output index, optional
signature bytes, the owning key pair (non-wire), the transient unspent
output back-reference (non-wire), and the optional coinbase height (the
`coinbase` attribute, present only on some inputs, hence `Option`). -/
structure Input where
  value : Nat
  prev : List Nat
  n : Nat
  signature : Option (List Nat)
  owner : List Nat
  output : Option UOut
  coinbase : Option Nat
deriving DecidableEq, Repr

/-- `Transaction.Output` (`transaction.py` lines 332–397): value,
recipient public key (modelled by its 450-byte export), the producing
transaction hash (`None` until sealed) and the 1-based index `n`
(`none` models the `-1` sentinel it is initialized to).  The
`timestamp` field of the source is never packed, hashed or compared and
is omitted. -/
structure Output where
  value : Nat
  pubKey : List Nat
  transaction : Option (List Nat)
  n : Option Nat
deriving DecidableEq, Repr

/-- `Transaction` (`transaction.py` lines 16–34): input and output
sequences, the lazily cached hash and the owning key pair. -/
structure Transaction where
  input : List Input
  output : List Output
  hash : Option (List Nat)
  owner : List Nat
deriving DecidableEq, Repr

/-- `Transaction.Input.__init__` (lines 290–302): raises
`'Previous transaction hash invalid length!'` when `prev` is not exactly
32 bytes; otherwise the record with `signature = None` and the given
owner and output back-reference, `coinbase` absent. -/
def Input.make (value : Nat) (prev : List Nat) (n : Nat) (owner : List Nat)
    (output : Option UOut) : Except String Input :=
  if prev.length = 32 then
    .ok { value := value, prev := prev, n := n, signature := none,
          owner := owner, output := output, coinbase := none }
  else .error "Previous transaction hash invalid length!"

/-- `Transaction.Input.apply_signature` (lines 311–319): store the
signature of `SHA256(trans_hash)` under the input's owning key pair. -/
def Input.apply_signature (i : Input) (trans_hash : List Nat) : Input :=
  { i with signature := some (signBytes i.owner (sha256 trans_hash)) }

/-- `Transaction.sign_inputs` (lines 143–146): every input signs with
its own `prev` field as the message, `i.apply_signature(i.prev)`. -/
def Transaction.sign_inputs (t : Transaction) : Transaction :=
  { t with input := t.input.map (fun i => i.apply_signature i.prev) }

/-- `Transaction.check_sig` (lines 249–254): verify `signature` against
`pubKey` over the digest `SHA256(trans)`; `none` models the `TypeError`
PKCS1 verification raises when the signature is Python `None`. -/
def Transaction.check_sig (signature : Option (List Nat)) (pubKey : List Nat)
    (trans : List Nat) : Option Bool :=
  match signature with
  | none => none
  | some s => some (decide (s = signBytes pubKey (sha256 trans)))

/-- `Transaction.Input.pack` (lines 321–330): value byte, raw previous
hash, index byte, then the signature bytes only when `withSig`, then the
4-byte coinbase height whenever the `coinbase` attribute is present.
`none` models a `struct.error` on an out-of-range field or the
`TypeError` of extending the buffer with a `None` signature. -/
def Input.pack (i : Input) (withSig : Bool) : Option (List Nat) := do
  let vb ← packU8 i.value
  let nb ← packU8 i.n
  let sigPart ← if withSig then i.signature else some []
  let cbPart ← match i.coinbase with
    | none => some []
    | some c => packU32 c
  return vb ++ i.prev ++ nb ++ sigPart ++ cbPart

/-- `Transaction.Input.unpack` (lines 268–288): read the value byte, the
32-byte previous-hash slice (a Python slice, possibly short), set the
coinbase flag when the slice equals the all-zero sentinel, read the
index byte, construct the `Input` (whose constructor rejects a short
previous hash), attach the 256-byte signature slice when `withSig`, and
read the 4-byte coinbase height when the coinbase flag is set.  The
owner falls back to the keystore default and no output back-reference is
attached. -/
def Input.unpack (buf : List Nat) (offset : Nat) (withSig : Bool) : Option Input :=
  match readU8 buf offset with
  | none => none
  | some value =>
    let prev := bytesAt buf (offset + 1) 32
    let coinbase := decide (prev = zeros32)
    match readU8 buf (offset + 33) with
    | none => none
    | some n =>
      if prev.length = 32 then
        let base : Input :=
          { value := value, prev := prev, n := n, signature := none,
            owner := defaultKeyPair, output := none, coinbase := none }
        let withSigApplied :=
          if withSig then { base with signature := some (bytesAt buf (offset + 34) 256) }
          else base
        if coinbase then
          match readU32 buf (offset + 34 + (if withSig then 256 else 0)) with
          | none => none
          | some c => some { withSigApplied with coinbase := some c }
        else
          some withSigApplied
      else none

/-- Modelled from the spec: `RSA.importKey` (external `Crypto.PublicKey`
library) succeeds exactly on well-formed exported key material; every
exported public key is 450 bytes (spec §3), so validity is modelled as
having exactly the full 450-byte export, which in particular makes the
importing of a truncated key slice fail as the library does. -/
def importKey (key : List Nat) : Option (List Nat) :=
  if key.length = 450 then some key else none

/-- `Transaction.Output.pack` (lines 379–384): 4-byte value, index byte,
raw exported recipient key.  `none` models the `struct.error` on an
out-of-range value or on the `-1` index sentinel (`n = none`). -/
def Output.pack (o : Output) : Option (List Nat) := do
  let vb ← packU32 o.value
  let nb ← match o.n with
    | some k => packU8 k
    | none => none
  return vb ++ nb ++ o.pubKey

/-- `Transaction.Output.unpack` (lines 386–397): read the 4-byte value
and the index byte, slice 450 key bytes (a Python slice, possibly
short), import the key (which fails on truncated material), and build a
fresh Output whose producing-transaction field is unset. -/
def Output.unpack (buf : List Nat) (offset : Nat) : Option Output :=
  match readU32 buf offset with
  | none => none
  | some value =>
    match readU8 buf (offset + 4) with
    | none => none
    | some n =>
      match importKey (bytesAt buf (offset + 5) 450) with
      | none => none
      | some pk => some { value := value, pubKey := pk, transaction := none, n := some n }

/-- `Transaction.pack` (lines 154–163) without the hash prefix: input
count byte, packed inputs, output count byte, packed outputs.  `none`
models a `struct.error` on a count above 255 or a failing field pack. -/
def Transaction.packBody (t : Transaction) (withSig : Bool) : Option (List Nat) := do
  let cin ← packU8 t.input.length
  let ins ← t.input.mapM (fun i => i.pack withSig)
  let cout ← packU8 t.output.length
  let outs ← t.output.mapM Output.pack
  return cin ++ ins.flatten ++ cout ++ outs.flatten

/-- `Transaction.hash_transaction` (lines 116–126): SHA-256 over the
packed form without signatures and without the hash prefix.  The lazy
cache of the source is irrelevant to a pure model. -/
def Transaction.hash_transaction (t : Transaction) : Option (List Nat) :=
  (t.packBody false).map sha256

/-- `Transaction.pack` (lines 154–163): the body optionally prefixed
with the 32-byte transaction hash when `withHash`. -/
def Transaction.pack (t : Transaction) (withSig withHash : Bool) : Option (List Nat) := do
  let pre ← if withHash then t.hash_transaction else some []
  let body ← t.packBody withSig
  return pre ++ body

/-- The input loop of `Transaction.unpack` (lines 184–192): decode
`count` inputs starting at `offset`, advancing the offset by
`PACKED_SIZE` (290), minus 256 when signatures are absent, plus 4 when
the decoded input carries the coinbase attribute, exactly the source's
offset arithmetic.  Returns the inputs and the final offset. -/
def Transaction.unpackInputs (buf : List Nat) (withSig : Bool) :
    Nat → Nat → Option (List Input × Nat)
  | 0, offset => some ([], offset)
  | count + 1, offset =>
    match Input.unpack buf offset withSig with
    | none => none
    | some i =>
      match Transaction.unpackInputs buf withSig count
          (offset + 290 - (if withSig then 0 else 256) +
            (if i.coinbase.isSome then 4 else 0)) with
      | none => none
      | some (is, final) => some (i :: is, final)

/-- The output loop of `Transaction.unpack` (lines 197–201): decode
`count` outputs starting at `offset`, advancing by `PACKED_SIZE` (455). -/
def Transaction.unpackOutputs (buf : List Nat) :
    Nat → Nat → Option (List Output × Nat)
  | 0, offset => some ([], offset)
  | count + 1, offset =>
    match Output.unpack buf offset with
    | none => none
    | some o =>
      match Transaction.unpackOutputs buf count (offset + 455) with
      | none => none
      | some (os, final) => some (o :: os, final)

/-- `Transaction.unpack` (lines 177–201): read the input count, decode
that many inputs, read the output count at the computed offset, decode
that many outputs.  A fresh transaction is populated, its hash unset and
its owner the keystore default. -/
def Transaction.unpack (buf : List Nat) (withSig : Bool) : Option Transaction :=
  match readU8 buf 0 with
  | none => none
  | some numIn =>
    match Transaction.unpackInputs buf withSig numIn 1 with
    | none => none
    | some (ins, off1) =>
      match readU8 buf off1 with
      | none => none
      | some numOut =>
        match Transaction.unpackOutputs buf numOut (off1 + 1) with
        | none => none
        | some (outs, _) =>
          some { input := ins, output := outs, hash := none, owner := defaultKeyPair }

/-- The conversion of an unspent output into an input performed inside
the selection loop of `Transaction.add_input` (line 54):
`Transaction.Input(o.value, o.transaction, o.n, owner=self.owner, output=o)`. -/
def inputOf (owner : List Nat) (o : UOut) : Input :=
  { value := o.value, prev := o.transaction, n := o.n, signature := none,
    owner := owner, output := some o, coinbase := none }

/-- The greedy selection loop of `Transaction.add_input` (lines 51–57):
accumulate each unspent output's value, convert it to an input (whose
constructor may reject a malformed previous hash), and stop as soon as
the accumulated value strictly exceeds the target.  Returns the final
accumulated value and the converted inputs. -/
def addInputLoop (owner : List Nat) (target : Nat) :
    List UOut → Nat → Except String (Nat × List Input)
  | [], val => .ok (val, [])
  | o :: rest, val =>
    match Input.make o.value o.transaction o.n owner (some o) with
    | .error e => .error e
    | .ok i =>
      if val + o.value > target then
        .ok (val + o.value, [i])
      else
        match addInputLoop owner target rest (val + o.value) with
        | .error e => .error e
        | .ok (v, is) => .ok (v, i :: is)

/-- `Transaction.add_input` (lines 36–68) after the Ledger query: run
the greedy selection loop over the unspent outputs `outs` the Ledger
returned (the `db` module is external; the post-consolidation snapshot
is passed explicitly), raise `'Output exceeds input!'` when the
accumulated value falls short of the target, and otherwise append the
selected inputs and a change output of the difference back to the
owner's public key, numbered by its 1-based position. -/
def Transaction.add_input (t : Transaction) (outs : List UOut) (target : Nat) :
    Except String Transaction :=
  match addInputLoop t.owner target outs 0 with
  | .error e => .error e
  | .ok (val, ins) =>
    if val < target then
      .error "Output exceeds input!"
    else
      let change : Output :=
        { value := val - target, pubKey := t.owner, transaction := none,
          n := some (t.output.length + 1) }
      .ok { t with input := t.input ++ ins, output := t.output ++ [change] }

/-- The inner loop of `Transaction.verify` (lines 224–230) for one
unspent output `o`: scan the transaction's inputs; on a
`(prev, n)` match, check the signature against the output's recipient
key and producing hash — a failing check returns rejection with the
Ledger state as already mutated, a passing check removes `o` from the
unspent set and the scan continues.  `none` models the exception arising
from checking a `None` signature. -/
def verifyRow (inputs : List Input) (o : UOut) (db : List UOut) :
    Option (Bool × List UOut) :=
  match inputs with
  | [] => some (true, db)
  | i :: rest =>
    if i.prev = o.transaction ∧ i.n = o.n then
      match Transaction.check_sig i.signature o.pubKey o.transaction with
      | none => none
      | some false => some (false, db)
      | some true => verifyRow rest o (db.erase o)
    else verifyRow rest o db

/-- The outer loop of `Transaction.verify` (lines 223–230): iterate the
snapshot of unspent outputs, threading the mutable Ledger state, and
stop with rejection as soon as one row rejects. -/
def verifyRows (inputs : List Input) : List UOut → List UOut →
    Option (Bool × List UOut)
  | [], db => some (true, db)
  | o :: rest, db =>
    match verifyRow inputs o db with
    | none => none
    | some (false, db') => some (false, db')
    | some (true, db') => verifyRows inputs rest db'

/-- `Transaction.verify` (lines 211–234) with the Ledger's unspent set
passed explicitly (the `db` module is external): accessing
`self.input[0]` raises `IndexError` on an empty input list (`none`);
a first input carrying the all-zero sentinel accepts immediately,
before the Ledger is ever queried and with no signature checked;
otherwise every (snapshot output, input) pair is matched and checked,
removing each successfully checked output from the unspent set.  The
result pairs the returned boolean with the final unspent set. -/
def Transaction.verify (t : Transaction) (db : List UOut) :
    Option (Bool × List UOut) :=
  match t.input with
  | [] => none
  | i0 :: _ =>
    if i0.prev = zeros32 then some (true, db)
    else verifyRows t.input db db

/-- The selection length stated the spec's way, independently of the
source's loop: the length of the shortest prefix of the unspent outputs
whose total value strictly exceeds the target, or the whole sequence
when no prefix does. -/
def specGreedyCount (target : Nat) : List UOut → Nat
  | [] => 0
  | o :: rest => if o.value > target then 1 else 1 + specGreedyCount (target - o.value) rest

/-! Concrete example data used by counterexamples and witnesses. -/

/-- A 32-byte hash of ones, the producing hash of the first example output. -/
def exH1 : List Nat := List.replicate 32 1

/-- A 32-byte hash of twos, the producing hash of the second example output. -/
def exH2 : List Nat := List.replicate 32 2

/-- An empty example transaction owned by the key `[10]`. -/
def exT0 : Transaction := { input := [], output := [], hash := none, owner := [10] }

/-- An example input correctly signed over its previous hash by the key `[10]`. -/
def exInput1 : Input :=
  { value := 5, prev := exH1, n := 1, signature := some (signBytes [10] (sha256 exH1)),
    owner := [10], output := none, coinbase := none }

/-- An example input carrying garbage signature bytes. -/
def exInput2 : Input :=
  { value := 5, prev := exH2, n := 1, signature := some [9],
    owner := [10], output := none, coinbase := none }

/-- The unspent output consumed by `exInput1`. -/
def exUOut1 : UOut := { value := 5, transaction := exH1, n := 1, pubKey := [10] }

/-- The unspent output consumed by `exInput2`. -/
def exUOut2 : UOut := { value := 5, transaction := exH2, n := 1, pubKey := [11] }

/-- A two-input example transaction whose first matched pair verifies and
whose second does not. -/
def exTx8 : Transaction :=
  { input := [exInput1, exInput2], output := [], hash := none, owner := [10] }

/-- An example coinbase input: all-zero previous hash, height 3, unsigned. -/
def exInputCb : Input :=
  { value := 5, prev := zeros32, n := 1, signature := none,
    owner := [10], output := none, coinbase := some 3 }

/-- The example coinbase input with a 256-byte signature attached. -/
def exInputCbSig : Input := { exInputCb with signature := some (List.replicate 256 8) }

/-- An example transaction whose first input is a coinbase input. -/
def exTxCb : Transaction :=
  { input := [exInputCb], output := [], hash := none, owner := [10] }

/-- An example unsigned input owned by the key `[7]`. -/
def exInput7 : Input :=
  { value := 5, prev := exH1, n := 1, signature := none,
    owner := [7], output := none, coinbase := none }

/-- A one-input example transaction owned by the key `[7]`, used to
compare signing over the previous hash with signing over the
transaction's own hash. -/
def exSignTx : Transaction :=
  { input := [exInput7], output := [], hash := none, owner := [7] }

/-- The hash of `exSignTx`, extracted from `hash_transaction`. -/
def exSignTxHash : List Nat := (Transaction.hash_transaction exSignTx).getD []

/-- Example unspent outputs of values 30, 50 and 20 for coin selection. -/
def exU30 : UOut := { value := 30, transaction := exH1, n := 1, pubKey := [10] }

/-- See `exU30`. -/
def exU50 : UOut := { value := 50, transaction := exH2, n := 1, pubKey := [10] }

/-- See `exU30`. -/
def exU20 : UOut := { value := 20, transaction := exH1, n := 1, pubKey := [10] }

/-- The transaction produced by selecting `[exU20]` for a target of 20
on the empty transaction `exT0`: one input and a zero-value change
output back to the owner. -/
def exTxC10 : Transaction :=
  { input := [inputOf [10] exU20],
    output := [{ value := 0, pubKey := [10], transaction := none, n := some 1 }],
    hash := none, owner := [10] }

/-- A wire-valid input whose previous hash is the all-zero sentinel but
which carries no coinbase height; decoding its encoding fails. -/
def exInputZeroPrev : Input :=
  { value := 0, prev := zeros32, n := 0, signature := none,
    owner := [10], output := none, coinbase := none }

/-- A wire-valid example output with the full 450-byte key export. -/
def exOutput450 : Output :=
  { value := 70000, pubKey := List.replicate 450 6, transaction := some exH1, n := some 2 }

/-- A wire-valid example input with a 256-byte signature. -/
def exInputSig : Input :=
  { value := 7, prev := exH1, n := 3, signature := some (List.replicate 256 9),
    owner := [10], output := none, coinbase := none }

/-- A 292-byte buffer declaring one with-signature input and no outputs. -/
def exBuf292 : List Nat :=
  [1, 5] ++ List.replicate 32 1 ++ [1] ++ List.replicate 256 9 ++ [0]

/-- The transaction `exBuf292` decodes to. -/
def exTxU : Transaction :=
  { input := [{ value := 5, prev := exH1, n := 1,
                signature := some (List.replicate 256 9),
                owner := defaultKeyPair, output := none, coinbase := none }],
    output := [], hash := none, owner := defaultKeyPair }

/-! Helper lemmas about the byte-level codec. -/

theorem zeros32_length : zeros32.length = 32 := by simp [zeros32]

theorem drop_split (a rest : List Nat) {k : Nat} (h : a.length = k) :
    (a ++ rest).drop k = rest := List.drop_left' h

theorem take_split (b c : List Nat) {len : Nat} (h : b.length = len) :
    (b ++ c).take len = b := List.take_left' h

theorem readU8_of_drop (buf : List Nat) (k x : Nat) (rest : List Nat)
    (h : buf.drop k = x :: rest) : readU8 buf k = some x := by
  unfold readU8
  rw [h]

theorem readU8_lt_length (buf : List Nat) (k x : Nat) (h : readU8 buf k = some x) :
    k < buf.length := by
  unfold readU8 at h
  cases hd : buf.drop k with
  | nil => rw [hd] at h; cases h
  | cons b bs =>
    have hlen : (buf.drop k).length = buf.length - k := List.length_drop k buf
    rw [hd] at hlen
    simp at hlen
    omega

theorem readU32_of_drop (buf : List Nat) (k c : Nat) (rest : List Nat)
    (h : buf.drop k = u32le c ++ rest) (hc : c < 4294967296) :
    readU32 buf k = some c := by
  unfold readU32
  rw [h]
  unfold u32le
  simp only [List.cons_append, List.nil_append]
  congr 1
  omega

/-- Dropping past an initial segment of known length and one further
element leaves the remainder. -/
theorem drop_split_cons (a : List Nat) (x : Nat) (b : List Nat) {k : Nat}
    (h : a.length = k) : (a ++ x :: b).drop (k + 1) = b := by
  calc (a ++ x :: b).drop (k + 1) = ((a ++ x :: b).drop k).drop 1 := by
        rw [List.drop_drop, Nat.add_comm]
  _ = (x :: b).drop 1 := by rw [drop_split a (x :: b) h]
  _ = b := rfl

/-- Decoding a no-signature, non-coinbase input from the exact packed
buffer shape recovers the wire fields. -/
theorem Input.unpack_eval_plain (v n : Nat) (prev : List Nat)
    (hp : prev.length = 32) (hz : prev ≠ zeros32) :
    Input.unpack (v :: (prev ++ [n])) 0 false =
      some { value := v, prev := prev, n := n, signature := none,
             owner := defaultKeyPair, output := none, coinbase := none } := by
  have r0 : readU8 (v :: (prev ++ [n])) 0 = some v := rfl
  have hb : bytesAt (v :: (prev ++ [n])) 1 32 = prev := by
    show (prev ++ [n]).take 32 = prev
    exact take_split prev [n] hp
  have hd : (v :: (prev ++ [n])).drop 33 = n :: [] := by
    show (prev ++ [n]).drop 32 = [n]
    exact drop_split prev [n] hp
  have r33 := readU8_of_drop _ 33 n [] hd
  simp [Input.unpack, r0, r33, hb, hp, hz]

/-- Decoding a with-signature, non-coinbase input from the exact packed
buffer shape recovers the wire fields including the 256-byte signature. -/
theorem Input.unpack_eval_sig (v n : Nat) (prev s : List Nat)
    (hp : prev.length = 32) (hz : prev ≠ zeros32) (hs : s.length = 256) :
    Input.unpack (v :: (prev ++ n :: s)) 0 true =
      some { value := v, prev := prev, n := n, signature := some s,
             owner := defaultKeyPair, output := none, coinbase := none } := by
  have r0 : readU8 (v :: (prev ++ n :: s)) 0 = some v := rfl
  have hb : bytesAt (v :: (prev ++ n :: s)) 1 32 = prev := by
    show (prev ++ n :: s).take 32 = prev
    exact take_split prev (n :: s) hp
  have hd : (v :: (prev ++ n :: s)).drop 33 = n :: s := by
    show (prev ++ n :: s).drop 32 = n :: s
    exact drop_split prev (n :: s) hp
  have r33 := readU8_of_drop _ 33 n s hd
  have hsig : bytesAt (v :: (prev ++ n :: s)) 34 256 = s := by
    show ((prev ++ n :: s).drop 33).take 256 = s
    rw [drop_split_cons prev n s hp]
    exact List.take_of_length_le (le_of_eq hs)
  simp [Input.unpack, r0, r33, hb, hsig, hp, hz]

/-- Decoding a no-signature coinbase input (all-zero previous hash plus
trailing 4-byte height) recovers the wire fields including the height. -/
theorem Input.unpack_eval_cb (v n c : Nat) (hc : c < 4294967296) :
    Input.unpack (v :: (zeros32 ++ n :: u32le c)) 0 false =
      some { value := v, prev := zeros32, n := n, signature := none,
             owner := defaultKeyPair, output := none, coinbase := some c } := by
  have r0 : readU8 (v :: (zeros32 ++ n :: u32le c)) 0 = some v := rfl
  have hb : bytesAt (v :: (zeros32 ++ n :: u32le c)) 1 32 = zeros32 := by
    show (zeros32 ++ n :: u32le c).take 32 = zeros32
    exact take_split zeros32 (n :: u32le c) zeros32_length
  have hd : (v :: (zeros32 ++ n :: u32le c)).drop 33 = n :: u32le c := by
    show (zeros32 ++ n :: u32le c).drop 32 = n :: u32le c
    exact drop_split zeros32 (n :: u32le c) zeros32_length
  have r33 := readU8_of_drop _ 33 n (u32le c) hd
  have hcb : (v :: (zeros32 ++ n :: u32le c)).drop 34 = u32le c ++ [] := by
    rw [List.append_nil]
    show (zeros32 ++ n :: u32le c).drop 33 = u32le c
    exact drop_split_cons zeros32 n (u32le c) zeros32_length
  have r34 := readU32_of_drop _ 34 c [] hcb hc
  simp [Input.unpack, r0, r33, r34, hb, zeros32_length]

/-- Decoding a with-signature coinbase input recovers the wire fields
including the signature and the trailing height. -/
theorem Input.unpack_eval_sig_cb (v n c : Nat) (s : List Nat)
    (hs : s.length = 256) (hc : c < 4294967296) :
    Input.unpack (v :: (zeros32 ++ n :: (s ++ u32le c))) 0 true =
      some { value := v, prev := zeros32, n := n, signature := some s,
             owner := defaultKeyPair, output := none, coinbase := some c } := by
  have r0 : readU8 (v :: (zeros32 ++ n :: (s ++ u32le c))) 0 = some v := rfl
  have hb : bytesAt (v :: (zeros32 ++ n :: (s ++ u32le c))) 1 32 = zeros32 := by
    show (zeros32 ++ n :: (s ++ u32le c)).take 32 = zeros32
    exact take_split zeros32 (n :: (s ++ u32le c)) zeros32_length
  have hd : (v :: (zeros32 ++ n :: (s ++ u32le c))).drop 33 = n :: (s ++ u32le c) := by
    show (zeros32 ++ n :: (s ++ u32le c)).drop 32 = n :: (s ++ u32le c)
    exact drop_split zeros32 (n :: (s ++ u32le c)) zeros32_length
  have r33 := readU8_of_drop _ 33 n (s ++ u32le c) hd
  have hsig : bytesAt (v :: (zeros32 ++ n :: (s ++ u32le c))) 34 256 = s := by
    show ((zeros32 ++ n :: (s ++ u32le c)).drop 33).take 256 = s
    rw [drop_split_cons zeros32 n (s ++ u32le c) zeros32_length]
    exact take_split s (u32le c) hs
  have hcb : (v :: (zeros32 ++ n :: (s ++ u32le c))).drop 290 = u32le c ++ [] := by
    rw [List.append_nil]
    have e1 : (v :: (zeros32 ++ n :: (s ++ u32le c))).drop 290 =
        ((v :: (zeros32 ++ n :: (s ++ u32le c))).drop 34).drop 256 := by
      rw [List.drop_drop]
    have e2 : (v :: (zeros32 ++ n :: (s ++ u32le c))).drop 34 = s ++ u32le c := by
      show (zeros32 ++ n :: (s ++ u32le c)).drop 33 = s ++ u32le c
      exact drop_split_cons zeros32 n (s ++ u32le c) zeros32_length
    rw [e1, e2, drop_split s (u32le c) hs]
  have r290 := readU32_of_drop _ 290 c [] hcb hc
  simp [Input.unpack, r0, r33, r290, hb, hsig, zeros32_length]

/-- Decoding an output from the exact packed buffer shape recovers the
wire fields. -/
theorem Output.unpack_eval (v n : Nat) (key : List Nat)
    (hv : v < 4294967296) (hk : key.length = 450) :
    Output.unpack (u32le v ++ n :: key) 0 =
      some { value := v, pubKey := key, transaction := none, n := some n } := by
  have r0 : readU32 (u32le v ++ n :: key) 0 = some v :=
    readU32_of_drop _ 0 v (n :: key) (List.drop_zero _) hv
  have h4 : (u32le v ++ n :: key).drop 4 = n :: key :=
    drop_split (u32le v) (n :: key) rfl
  have r4 := readU8_of_drop _ 4 n key h4
  have h5 : bytesAt (u32le v ++ n :: key) 5 450 = key := by
    unfold bytesAt
    rw [drop_split_cons (u32le v) n key (show (u32le v).length = 4 from rfl)]
    exact List.take_of_length_le (le_of_eq hk)
  simp [Output.unpack, r0, r4, h5, importKey, hk]

/-- The inner verification loop only ever removes elements: its
resulting Ledger state is a sublist of the one it started from. -/
theorem verifyRow_sublist (inputs : List Input) (o : UOut) (db db' : List UOut)
    (b : Bool) (h : verifyRow inputs o db = some (b, db')) : db'.Sublist db := by
  induction inputs generalizing db with
  | nil =>
    simp only [verifyRow, Option.some.injEq, Prod.mk.injEq] at h
    rw [← h.2]
  | cons i rest ih =>
    unfold verifyRow at h
    split at h
    · cases hc : Transaction.check_sig i.signature o.pubKey o.transaction with
      | none => rw [hc] at h; exact absurd h (by simp)
      | some bc =>
        rw [hc] at h
        cases bc with
        | false =>
          simp only [Option.some.injEq, Prod.mk.injEq] at h
          rw [← h.2]
        | true => exact (ih _ h).trans (List.erase_sublist o db)
    · exact ih _ h

/-- The outer verification loop only ever removes elements: its
resulting Ledger state is a sublist of the one it started from. -/
theorem verifyRows_sublist (inputs : List Input) (snap : List UOut) (db db' : List UOut)
    (b : Bool) (h : verifyRows inputs snap db = some (b, db')) : db'.Sublist db := by
  induction snap generalizing db with
  | nil =>
    simp only [verifyRows, Option.some.injEq, Prod.mk.injEq] at h
    rw [← h.2]
  | cons o rest ih =>
    unfold verifyRows at h
    cases hr : verifyRow inputs o db with
    | none => rw [hr] at h; exact absurd h (by simp)
    | some p =>
      rw [hr] at h
      obtain ⟨br, dbr⟩ := p
      cases br with
      | false =>
        simp only [Option.some.injEq, Prod.mk.injEq] at h
        rw [← h.2]
        exact verifyRow_sublist inputs o db dbr false hr
      | true => exact (ih dbr h).trans (verifyRow_sublist inputs o db dbr true hr)

/-- The inner verification loop cannot raise when every input carries a
signature. -/
theorem verifyRow_isSome (inputs : List Input) (o : UOut) (db : List UOut)
    (h : ∀ i ∈ inputs, i.signature.isSome) : (verifyRow inputs o db).isSome := by
  induction inputs generalizing db with
  | nil => simp [verifyRow]
  | cons i rest ih =>
    have hi := h i (List.mem_cons_self i rest)
    have hrest : ∀ j ∈ rest, j.signature.isSome :=
      fun j hj => h j (List.mem_cons_of_mem i hj)
    unfold verifyRow
    split
    · cases hs : i.signature with
      | none => rw [hs] at hi; exact absurd hi (by simp)
      | some s =>
        simp only [Transaction.check_sig, hs]
        cases hd : decide (s = signBytes o.pubKey (sha256 o.transaction)) with
        | false => simp
        | true => exact ih _ hrest
    · exact ih _ hrest

/-- The outer verification loop cannot raise when every input carries a
signature. -/
theorem verifyRows_isSome (inputs : List Input) (snap db : List UOut)
    (h : ∀ i ∈ inputs, i.signature.isSome) : (verifyRows inputs snap db).isSome := by
  induction snap generalizing db with
  | nil => simp [verifyRows]
  | cons o rest ih =>
    unfold verifyRows
    obtain ⟨⟨b, db'⟩, hr⟩ := Option.isSome_iff_exists.mp (verifyRow_isSome inputs o db h)
    rw [hr]
    cases b with
    | false => simp
    | true => exact ih db'

/-! Claim theorems. -/

/-- C1, counterexample: in `sign_inputs` the message handed to
`apply_signature` is the input's own `prev` field, not the transaction's
hash.  For the concrete transaction `exSignTx` the stored signature is
the signature over SHA-256 of `prev`, which differs from a signature
over SHA-256 of the transaction's hash. -/
theorem C1_counterexample :
    Transaction.hash_transaction exSignTx = some exSignTxHash ∧
    (Transaction.sign_inputs exSignTx).input.map Input.signature ≠
      [some (signBytes [7] (sha256 exSignTxHash))] := by
  constructor
  · rfl
  · decide

/-- C1, amended: during finalization the signing step invokes
`apply_signature` with each input's own `previousTxHash` (`i.prev`) as
the message, so each stored signature is a signature over SHA-256 of
that input's previous transaction hash — which is exactly the message
`verify` later checks it against via the matched output's producing
hash. -/
theorem C1_amended (t : Transaction) :
    (Transaction.sign_inputs t).input.map Input.signature =
      t.input.map (fun i => some (signBytes i.owner (sha256 i.prev))) ∧
    ∀ i ∈ t.input,
      Transaction.check_sig (some (signBytes i.owner (sha256 i.prev))) i.owner i.prev =
        some true := by
  constructor
  · simp [Transaction.sign_inputs, Input.apply_signature]
  · intro i _
    simp [Transaction.check_sig]

/-- C1, witness for the amended theorem at the concrete `exSignTx`. -/
theorem C1_amended_witness :
    (Transaction.sign_inputs exSignTx).input.map Input.signature =
      exSignTx.input.map (fun i => some (signBytes i.owner (sha256 i.prev))) ∧
    Transaction.check_sig (some (signBytes exInput7.owner (sha256 exInput7.prev)))
      exInput7.owner exInput7.prev = some true :=
  ⟨(C1_amended exSignTx).1, (C1_amended exSignTx).2 exInput7 (by decide)⟩

/-- C2: a transaction whose first input carries the all-zero sentinel is
accepted immediately by `verify`: the result is `true` and the Ledger
state is returned untouched for every possible unspent set, which is the
shallow counterpart of performing no unspent-output lookup, no removal
and no signature check. -/
theorem C2_coinbase_accept (t : Transaction) (db : List UOut) (i0 : Input)
    (rest : List Input) (h : t.input = i0 :: rest) (hz : i0.prev = zeros32) :
    Transaction.verify t db = some (true, db) := by
  unfold Transaction.verify
  split
  · rename_i heq
    rw [heq] at h
    cases h
  · rename_i j0 jrest heq
    rw [heq] at h
    injection h with h1 h2
    rw [h1, hz]
    simp

/-- C2, witness: the concrete coinbase transaction `exTxCb` is accepted
over the unspent set `[exUOut1]`, which it leaves untouched. -/
theorem C2_coinbase_accept_witness :
    Transaction.verify exTxCb [exUOut1] = some (true, [exUOut1]) :=
  C2_coinbase_accept exTxCb [exUOut1] exInputCb [] rfl rfl

/-- C7, counterexample: packing the coinbase-height-carrying input
`exInputCb` without signatures yields 38 bytes — the 4 height bytes are
appended even though signatures are not included — not the 34-byte
no-signature form the claim promises. -/
theorem C7_counterexample :
    (Input.pack exInputCb false).map List.length = some 38 ∧
    (Input.pack exInputCb false).map List.length ≠ some 34 := by
  constructor
  · decide
  · decide

/-- C7, amended: when a coinbase height is present, `pack` appends the
4-byte height regardless of whether signatures are included: after the
256-byte signature region in the with-signature form, and directly
after the index byte (38 bytes in all) in the no-signature form. -/
theorem C7_amended (i : Input) (c : Nat) (s : List Nat)
    (hc : i.coinbase = some c) (hv : i.value < 256) (hn : i.n < 256)
    (hcv : c < 4294967296) (hs : i.signature = some s) :
    Input.pack i true =
      some ([i.value] ++ i.prev ++ [i.n] ++ s ++ u32le c) ∧
    Input.pack i false =
      some ([i.value] ++ i.prev ++ [i.n] ++ u32le c) := by
  constructor
  · simp [Input.pack, packU8, packU32, hc, hs, hv, hn, hcv, u32le, List.append_assoc]
  · simp [Input.pack, packU8, packU32, hc, hs, hv, hn, hcv, u32le, List.append_assoc]

/-- C7, witness for the amended theorem at the concrete coinbase input. -/
theorem C7_amended_witness :
    Input.pack exInputCbSig true =
      some ([exInputCbSig.value] ++ exInputCbSig.prev ++ [exInputCbSig.n] ++
        List.replicate 256 8 ++ u32le 3) ∧
    Input.pack exInputCbSig false =
      some ([exInputCbSig.value] ++ exInputCbSig.prev ++ [exInputCbSig.n] ++ u32le 3) :=
  C7_amended exInputCbSig 3 (List.replicate 256 8) rfl (by decide) (by decide)
    (by decide) rfl

/-- C8, counterexample: rejecting `exTx8` over the unspent set
`[exUOut1, exUOut2]` does not leave the unspent set unchanged — the
first pair was matched, checked successfully and removed before the
second pair failed, so rejection returns with `exUOut1` already gone. -/
theorem C8_counterexample :
    Transaction.verify exTx8 [exUOut1, exUOut2] = some (false, [exUOut2]) ∧
    ([exUOut2] : List UOut) ≠ [exUOut1, exUOut2] := by
  constructor
  · decide
  · decide

/-- C8, amended: when `verify` rejects a transaction over a failed
signature check the whole transaction is rejected — failure is returned
and nothing further is removed — but the unspent set is not rolled back:
outputs matched and successfully checked earlier in the same call remain
removed, so the unspent set on rejection is a sublist of the original,
not necessarily the original itself. -/
theorem C8_amended (t : Transaction) (db db' : List UOut)
    (h : Transaction.verify t db = some (false, db')) : db'.Sublist db := by
  unfold Transaction.verify at h
  split at h
  · exact absurd h (by simp)
  · split at h
    · simp at h
    · exact verifyRows_sublist t.input db db db' false h

/-- C8, witness for the amended theorem at the concrete rejection. -/
theorem C8_amended_witness : List.Sublist [exUOut2] [exUOut1, exUOut2] :=
  C8_amended exTx8 [exUOut1, exUOut2] [exUOut2] (by decide)

/-- C9, counterexample: `verify` on a transaction with an empty input
list raises (`self.input[0]` is an `IndexError`), modelled as `none`,
instead of returning a boolean. -/
theorem C9_counterexample : Transaction.verify exT0 [] = none := rfl

/-- C9, amended: for every transaction with at least one input, all of
whose inputs carry signatures, `verify` reports its outcome as a boolean
return value and never raises, over every unspent set. -/
theorem C9_amended (t : Transaction) (db : List UOut)
    (hne : t.input ≠ [])
    (hsig : ∀ i ∈ t.input, i.signature.isSome) :
    (Transaction.verify t db).isSome := by
  unfold Transaction.verify
  split
  · rename_i heq
    exact absurd heq hne
  · split
    · simp
    · exact verifyRows_isSome t.input db db hsig

/-- C9, witness for the amended theorem at the concrete `exTx8`. -/
theorem C9_amended_witness : (Transaction.verify exTx8 [exUOut1, exUOut2]).isSome :=
  C9_amended exTx8 [exUOut1, exUOut2] (by decide) (by decide)

/-- C5, counterexample: `exInputZeroPrev` is wire-valid in every respect
the claim lists (byte-range value and index, 32-byte previous hash, no
signature needed in the no-signature form), yet decoding its encoding
fails outright instead of reproducing its fields: its previous hash is
the all-zero sentinel while no coinbase height is present, so the
decoder reads a height past the end of the 34-byte buffer. -/
theorem C5_counterexample :
    (Input.pack exInputZeroPrev false).bind (fun bs => Input.unpack bs 0 false) = none := by
  decide

/-- C5, amended: the round-trip law holds for wire-valid Outputs, and
for wire-valid Inputs whose coinbase height is present exactly when the
previous hash is the all-zero sentinel: every wire-format field (value,
previous hash, index, signature when included, coinbase height; value,
index, recipient key) is reproduced, while the non-wire fields (owner
key reference, transient Output back-reference, producing-transaction
hash) are reset to their defaults rather than restored. -/
theorem C5_roundtrip :
    (∀ (o : Output) (k : Nat), o.value < 4294967296 → o.n = some k → k < 256 →
      o.pubKey.length = 450 →
      (Output.pack o).bind (fun bs => Output.unpack bs 0) =
        some { value := o.value, pubKey := o.pubKey, transaction := none, n := some k }) ∧
    (∀ (i : Input) (withSig : Bool), i.value < 256 → i.n < 256 → i.prev.length = 32 →
      (withSig = true → i.signature.map List.length = some 256) →
      (i.coinbase.isSome ↔ i.prev = zeros32) →
      (∀ c, i.coinbase = some c → c < 4294967296) →
      (Input.pack i withSig).bind (fun bs => Input.unpack bs 0 withSig) =
        some { value := i.value, prev := i.prev, n := i.n,
               signature := if withSig then i.signature else none,
               owner := defaultKeyPair, output := none, coinbase := i.coinbase }) := by
  constructor
  · intro o k hv hn hk hkey
    have hpack : Output.pack o = some (u32le o.value ++ k :: o.pubKey) := by
      simp [Output.pack, packU32, packU8, hv, hn, hk]
    rw [hpack]
    show Output.unpack (u32le o.value ++ k :: o.pubKey) 0 = _
    exact Output.unpack_eval o.value k o.pubKey hv hkey
  · intro i withSig hv hn hp hsig hcbz hcv
    cases hcb : i.coinbase with
    | none =>
      have hz : i.prev ≠ zeros32 := by
        intro hzz
        have hsome := hcbz.mpr hzz
        rw [hcb] at hsome
        simp at hsome
      cases withSig with
      | false =>
        have hpack : Input.pack i false = some (i.value :: (i.prev ++ [i.n])) := by
          simp [Input.pack, packU8, hv, hn, hcb]
        rw [hpack]
        show Input.unpack (i.value :: (i.prev ++ [i.n])) 0 false = _
        rw [Input.unpack_eval_plain i.value i.n i.prev hp hz]
        simp [hcb]
      | true =>
        obtain ⟨s, hs, hslen⟩ : ∃ s, i.signature = some s ∧ s.length = 256 := by
          cases hsg : i.signature with
          | none =>
            have := hsig rfl
            rw [hsg] at this
            simp at this
          | some s =>
            refine ⟨s, rfl, ?_⟩
            have := hsig rfl
            rw [hsg] at this
            simpa using this
        have hpack : Input.pack i true = some (i.value :: (i.prev ++ i.n :: s)) := by
          simp [Input.pack, packU8, hv, hn, hcb, hs]
        rw [hpack]
        show Input.unpack (i.value :: (i.prev ++ i.n :: s)) 0 true = _
        rw [Input.unpack_eval_sig i.value i.n i.prev s hp hz hslen]
        simp [hcb, hs]
    | some c =>
      have hzz : i.prev = zeros32 := hcbz.mp (by rw [hcb]; rfl)
      have hc : c < 4294967296 := hcv c hcb
      cases withSig with
      | false =>
        have hpack : Input.pack i false = some (i.value :: (zeros32 ++ i.n :: u32le c)) := by
          simp [Input.pack, packU8, packU32, hv, hn, hcb, hc, hzz]
        rw [hpack]
        show Input.unpack (i.value :: (zeros32 ++ i.n :: u32le c)) 0 false = _
        rw [Input.unpack_eval_cb i.value i.n c hc]
        simp [hcb, hzz]
      | true =>
        obtain ⟨s, hs, hslen⟩ : ∃ s, i.signature = some s ∧ s.length = 256 := by
          cases hsg : i.signature with
          | none =>
            have := hsig rfl
            rw [hsg] at this
            simp at this
          | some s =>
            refine ⟨s, rfl, ?_⟩
            have := hsig rfl
            rw [hsg] at this
            simpa using this
        have hpack : Input.pack i true =
            some (i.value :: (zeros32 ++ i.n :: (s ++ u32le c))) := by
          simp [Input.pack, packU8, packU32, hv, hn, hcb, hc, hzz, hs]
        rw [hpack]
        show Input.unpack (i.value :: (zeros32 ++ i.n :: (s ++ u32le c))) 0 true = _
        rw [Input.unpack_eval_sig_cb i.value i.n c s hslen hc]
        simp [hcb, hzz, hs]

set_option maxRecDepth 20000 in
/-- C5, witness for the amended round trip at a concrete wire-valid
output and a concrete signed wire-valid input. -/
theorem C5_roundtrip_witness :
    (Output.pack exOutput450).bind (fun bs => Output.unpack bs 0) =
      some { value := 70000, pubKey := List.replicate 450 6, transaction := none,
             n := some 2 } ∧
    (Input.pack exInputSig true).bind (fun bs => Input.unpack bs 0 true) =
      some { value := 7, prev := exH1, n := 3,
             signature := some (List.replicate 256 9),
             owner := defaultKeyPair, output := none, coinbase := none } :=
  ⟨C5_roundtrip.1 exOutput450 2 (by decide) rfl (by decide) (by decide),
   C5_roundtrip.2 exInputSig true (by decide) (by decide) (by decide)
     (fun _ => rfl) (by decide) (fun c h => Option.noConfusion h)⟩

/-! Helper lemmas tracking how far a successful transaction decode must
have read into the buffer. -/

/-- A successful input-loop decode returns exactly the declared count of
inputs and advances the offset by at least the fixed per-input width. -/
theorem unpackInputs_bound (buf : List Nat) (withSig : Bool) :
    ∀ (count offset : Nat) (is : List Input) (fin : Nat),
      Transaction.unpackInputs buf withSig count offset = some (is, fin) →
      is.length = count ∧ offset + count * (if withSig then 290 else 34) ≤ fin := by
  intro count
  induction count with
  | zero =>
    intro offset is fin h
    simp only [Transaction.unpackInputs, Option.some.injEq, Prod.mk.injEq] at h
    obtain ⟨h1, h2⟩ := h
    subst h1
    subst h2
    simp
  | succ k ih =>
    intro offset is fin h
    unfold Transaction.unpackInputs at h
    split at h
    · cases h
    · split at h
      · cases h
      · rename_i scr1 i heq1 scr2 is2 fin2 hrec
        simp only [Option.some.injEq, Prod.mk.injEq] at h
        obtain ⟨h1, h2⟩ := h
        obtain ⟨hlen, hoff⟩ := ih _ _ _ hrec
        subst h1
        subst h2
        refine ⟨by simp [hlen], ?_⟩
        cases withSig <;> cases hcbb : i.coinbase.isSome <;>
          simp only [hcbb] at hoff <;> simp at hoff ⊢ <;> omega

/-- A successful output decode implies the buffer reaches through the
full 455-byte output record. -/
theorem Output.unpack_bound (buf : List Nat) (offset : Nat) (o : Output)
    (h : Output.unpack buf offset = some o) : offset + 455 ≤ buf.length := by
  unfold Output.unpack at h
  split at h
  · cases h
  · split at h
    · cases h
    · split at h
      · cases h
      · rename_i pk himp
        unfold importKey at himp
        split at himp
        · rename_i hk
          unfold bytesAt at hk
          rw [List.length_take, List.length_drop] at hk
          omega
        · cases himp

/-- A successful output-loop decode returns exactly the declared count
and, when nonzero, implies the buffer covers all decoded records. -/
theorem unpackOutputs_bound (buf : List Nat) :
    ∀ (count offset : Nat) (os : List Output) (fin : Nat),
      Transaction.unpackOutputs buf count offset = some (os, fin) →
      os.length = count ∧ (count = 0 ∨ offset + count * 455 ≤ buf.length) := by
  intro count
  induction count with
  | zero =>
    intro offset os fin h
    simp only [Transaction.unpackOutputs, Option.some.injEq, Prod.mk.injEq] at h
    obtain ⟨h1, h2⟩ := h
    subst h1
    simp
  | succ k ih =>
    intro offset os fin h
    unfold Transaction.unpackOutputs at h
    split at h
    · cases h
    · split at h
      · cases h
      · rename_i scr1 o ho scr2 os2 fin2 hrec
        simp only [Option.some.injEq, Prod.mk.injEq] at h
        obtain ⟨h1, h2⟩ := h
        subst h1
        obtain ⟨hlen, hor⟩ := ih _ _ _ hrec
        have hob := Output.unpack_bound buf offset o ho
        refine ⟨by simp [hlen], Or.inr ?_⟩
        cases hor with
        | inl h0 => subst h0; omega
        | inr hbound => omega

/-- C6: a successful transaction decode certifies that the buffer holds
at least the bytes the declared field widths require — the two count
bytes, the full fixed width of every declared input (including the full
256-byte signature region when signatures are declared) and 455 bytes
per declared output.  Contrapositively, any buffer shorter than the
declared field widths require makes `unpack` fail with an error
(`TruncatedBuffer` in the spec's taxonomy; a raised `struct.error` or
key-import failure in the source, `none` here) at every truncation
position, rather than returning a partially populated transaction. -/
theorem C6_decode_requires_length (buf : List Nat) (withSig : Bool) (t : Transaction)
    (h : Transaction.unpack buf withSig = some t) :
    readU8 buf 0 = some t.input.length ∧
    2 + t.input.length * (if withSig then 290 else 34) + t.output.length * 455 ≤
      buf.length := by
  unfold Transaction.unpack at h
  split at h
  · cases h
  · split at h
    · cases h
    · split at h
      · cases h
      · split at h
        · cases h
        · rename_i scrA numIn h0 scrB ins off1 h1 scrC numOut h2 scrD outs fin h3
          simp only [Option.some.injEq] at h
          obtain ⟨hinl, hoff⟩ := unpackInputs_bound buf withSig numIn 1 ins off1 h1
          obtain ⟨houtl, hor⟩ := unpackOutputs_bound buf numOut (off1 + 1) outs fin h3
          have hlt := readU8_lt_length buf off1 numOut h2
          subst h
          refine ⟨by rw [h0]; simp [hinl], ?_⟩
          show 2 + ins.length * (if withSig then 290 else 34) + outs.length * 455 ≤ _
          rw [hinl, houtl]
          generalize (if withSig then 290 else 34) = w at hoff ⊢
          generalize hm : numIn * w = m at hoff ⊢
          cases hor with
          | inl hz => subst hz; omega
          | inr hb => omega

set_option maxRecDepth 20000 in
/-- C6, witness: the 292-byte buffer `exBuf292` decodes (with
signatures) to the one-input, zero-output transaction `exTxU`, and its
length indeed covers the declared widths `2 + 1 * 290 + 0 * 455`. -/
theorem C6_decode_requires_length_witness :
    readU8 exBuf292 0 = some exTxU.input.length ∧
    2 + exTxU.input.length * (if true then 290 else 34) + exTxU.output.length * 455 ≤
      exBuf292.length :=
  C6_decode_requires_length exBuf292 true exTxU (by decide)

/-! Helper lemmas about the greedy coin-selection loop. -/

/-- Characterization of the selection loop: over Ledger records with
well-formed 32-byte producing hashes, when the target can still be
covered, the loop returns exactly the greedy prefix of the returned
order — converted to inputs — together with its accumulated value,
and that value covers the target. -/
theorem addInputLoop_eval (owner : List Nat) (target : Nat) :
    ∀ (outs : List UOut) (acc : Nat),
      (∀ o ∈ outs, o.transaction.length = 32) →
      acc ≤ target →
      target ≤ acc + (outs.map UOut.value).sum →
      addInputLoop owner target outs acc =
        .ok (acc + ((outs.take (specGreedyCount (target - acc) outs)).map UOut.value).sum,
             (outs.take (specGreedyCount (target - acc) outs)).map (inputOf owner)) ∧
      target ≤ acc + ((outs.take (specGreedyCount (target - acc) outs)).map UOut.value).sum := by
  intro outs
  induction outs with
  | nil =>
    intro acc h32 hacc hcov
    refine ⟨by simp [addInputLoop, specGreedyCount], ?_⟩
    simpa using hcov
  | cons o rest ih =>
    intro acc h32 hacc hcov
    have ho32 : o.transaction.length = 32 := h32 o (by simp)
    have hrest32 : ∀ x ∈ rest, x.transaction.length = 32 :=
      fun x hx => h32 x (by simp [hx])
    have hmk : Input.make o.value o.transaction o.n owner (some o) =
        .ok (inputOf owner o) := by
      simp [Input.make, ho32, inputOf]
    by_cases hbr : acc + o.value > target
    · have hspec : specGreedyCount (target - acc) (o :: rest) = 1 := by
        show (if o.value > target - acc then 1
              else 1 + specGreedyCount (target - acc - o.value) rest) = 1
        rw [if_pos (by omega)]
      refine ⟨?_, ?_⟩
      · rw [hspec]
        simp [addInputLoop, hmk, hbr]
      · rw [hspec]
        simp
        omega
    · have hcov' : target ≤ (acc + o.value) + (rest.map UOut.value).sum := by
        simp only [List.map_cons, List.sum_cons] at hcov
        omega
      obtain ⟨ihok, ihge⟩ := ih (acc + o.value) hrest32 (by omega) hcov'
      have hspec : specGreedyCount (target - acc) (o :: rest) =
          specGreedyCount (target - (acc + o.value)) rest + 1 := by
        show (if o.value > target - acc then 1
              else 1 + specGreedyCount (target - acc - o.value) rest) = _
        rw [if_neg (by omega)]
        have harg : target - acc - o.value = target - (acc + o.value) := by omega
        rw [harg, Nat.add_comm]
      refine ⟨?_, ?_⟩
      · rw [hspec]
        simp [addInputLoop, hmk, hbr, ihok, List.take_succ_cons, Nat.add_assoc]
      · rw [hspec]
        simp only [List.take_succ_cons, List.map_cons, List.sum_cons]
        omega

/-- The selection loop never raises over well-formed Ledger records, and
its accumulated value falls short of the target exactly when the total
of all returned unspent outputs does. -/
theorem addInputLoop_error_iff (owner : List Nat) (target : Nat) :
    ∀ (outs : List UOut) (acc : Nat),
      (∀ o ∈ outs, o.transaction.length = 32) →
      ∃ v is, addInputLoop owner target outs acc = .ok (v, is) ∧
        (v < target ↔ acc + (outs.map UOut.value).sum < target) := by
  intro outs
  induction outs with
  | nil =>
    intro acc h32
    exact ⟨acc, [], by simp [addInputLoop], by simp⟩
  | cons o rest ih =>
    intro acc h32
    have hmk : Input.make o.value o.transaction o.n owner (some o) =
        .ok (inputOf owner o) := by
      simp [Input.make, h32 o (by simp), inputOf]
    by_cases hbr : acc + o.value > target
    · refine ⟨acc + o.value, [inputOf owner o], by simp [addInputLoop, hmk, hbr], ?_⟩
      simp only [List.map_cons, List.sum_cons]
      constructor <;> intro <;> omega
    · obtain ⟨v, is, hok, hiff⟩ := ih (acc + o.value) (fun x hx => h32 x (by simp [hx]))
      refine ⟨v, inputOf owner o :: is, by simp [addInputLoop, hmk, hbr, hok], ?_⟩
      simp only [List.map_cons, List.sum_cons]
      rw [hiff]
      constructor <;> intro <;> omega

/-- The accumulated value the selection loop returns never exceeds the
starting value plus the total of the unspent outputs it scanned. -/
theorem addInputLoop_le (owner : List Nat) (target : Nat) :
    ∀ (outs : List UOut) (acc v : Nat) (is : List Input),
      addInputLoop owner target outs acc = .ok (v, is) →
      v ≤ acc + (outs.map UOut.value).sum := by
  intro outs
  induction outs with
  | nil =>
    intro acc v is h
    simp only [addInputLoop, Except.ok.injEq, Prod.mk.injEq] at h
    obtain ⟨h1, h2⟩ := h
    omega
  | cons o rest ih =>
    intro acc v is h
    unfold addInputLoop at h
    split at h
    · cases h
    · split at h
      · simp only [Except.ok.injEq, Prod.mk.injEq] at h
        obtain ⟨h1, h2⟩ := h
        simp only [List.map_cons, List.sum_cons]
        omega
      · split at h
        · cases h
        · rename_i scr i hmk hbr scr2 v2 is2 hrec
          simp only [Except.ok.injEq, Prod.mk.injEq] at h
          obtain ⟨h1, h2⟩ := h
          subst h1
          have := ih _ _ _ hrec
          simp only [List.map_cons, List.sum_cons]
          omega

/-- Unfolding `add_input` once the selection loop's result is known. -/
theorem add_input_eq_of_loop (t : Transaction) (outs : List UOut) (target val : Nat)
    (ins : List Input)
    (hloop : addInputLoop t.owner target outs 0 = .ok (val, ins)) :
    Transaction.add_input t outs target =
      if val < target then .error "Output exceeds input!"
      else .ok { t with
                 input := t.input ++ ins,
                 output := t.output ++
                   [{ value := val - target, pubKey := t.owner, transaction := none,
                      n := some (t.output.length + 1) }] } := by
  unfold Transaction.add_input
  rw [hloop]

/-- C3: over well-formed non-empty Ledger results whose total covers the
target, `add_input` converts unspent outputs to inputs greedily in the
returned order, consuming exactly the shortest prefix whose accumulated
value strictly exceeds the target (or everything when only equality is
reached), and appends a single change output back to the owner's public
key whose value is the accumulated value minus the target. -/
theorem C3_greedy_selection (t : Transaction) (outs : List UOut) (target : Nat)
    (h32 : ∀ o ∈ outs, o.transaction.length = 32)
    (hne : outs ≠ [])
    (hcov : target ≤ (outs.map UOut.value).sum) :
    Transaction.add_input t outs target =
      .ok { t with
            input := t.input ++
              (outs.take (specGreedyCount target outs)).map (inputOf t.owner),
            output := t.output ++
              [{ value :=
                   ((outs.take (specGreedyCount target outs)).map UOut.value).sum - target,
                 pubKey := t.owner, transaction := none,
                 n := some (t.output.length + 1) }] } := by
  obtain ⟨hloop, hge⟩ :=
    addInputLoop_eval t.owner target outs 0 h32 (Nat.zero_le _) (by simpa using hcov)
  simp only [Nat.sub_zero, Nat.zero_add] at hloop hge
  rw [add_input_eq_of_loop t outs target _ _ hloop, if_neg (Nat.not_lt.mpr hge)]

/-- C3, witness: for unspent values `[30, 50]` and target `40` both
outputs are consumed in order and the change output has value `40`. -/
theorem C3_greedy_selection_witness :
    Transaction.add_input exT0 [exU30, exU50] 40 =
      .ok { input := [inputOf [10] exU30, inputOf [10] exU50],
            output := [{ value := 40, pubKey := [10], transaction := none, n := some 1 }],
            hash := none, owner := [10] } := by
  rw [C3_greedy_selection exT0 [exU30, exU50] 40 (by decide) (by decide) (by decide)]
  rfl

/-- C4: over well-formed Ledger results, `add_input` raises exactly when
the total unspent value is less than the target, and the only error it
raises is the insufficient-funds error (`'Output exceeds input!'` in the
source, `InsufficientFunds` in the spec's taxonomy). -/
theorem C4_insufficient_funds (t : Transaction) (outs : List UOut) (target : Nat)
    (h32 : ∀ o ∈ outs, o.transaction.length = 32) (e : String) :
    Transaction.add_input t outs target = .error e ↔
      (e = "Output exceeds input!" ∧ (outs.map UOut.value).sum < target) := by
  obtain ⟨v, is, hok, hiff⟩ := addInputLoop_error_iff t.owner target outs 0 h32
  simp only [Nat.zero_add] at hiff
  rw [add_input_eq_of_loop t outs target v is hok]
  by_cases hv : v < target
  · simp [hv, hiff.mp hv, eq_comm]
  · have hns : ¬ (outs.map UOut.value).sum < target := fun hc => hv (hiff.mpr hc)
    simp [hv, hns]

/-- C4, witness: a single unspent output of value `30` cannot cover a
target of `40`, so `add_input` raises the insufficient-funds error. -/
theorem C4_insufficient_funds_witness :
    Transaction.add_input exT0 [exU30] 40 = .error "Output exceeds input!" ↔
      ("Output exceeds input!" = "Output exceeds input!" ∧
        ([exU30].map UOut.value).sum < 40) :=
  C4_insufficient_funds exT0 [exU30] 40 (by decide) "Output exceeds input!"

/-- C10: every successful `add_input` run appends exactly one change
output, paid to the owner's public key and numbered by its 1-based
position — and when the unspent total exactly equals the target the
change output is still appended, with value `0`. -/
theorem C10_change_output_always (t : Transaction) (outs : List UOut) (target : Nat)
    (tr : Transaction) (hok : Transaction.add_input t outs target = .ok tr) :
    tr.output.dropLast = t.output ∧
    tr.output.getLast?.map Output.pubKey = some t.owner ∧
    tr.output.getLast?.map Output.n = some (some (t.output.length + 1)) ∧
    ((outs.map UOut.value).sum = target → tr.output.getLast?.map Output.value = some 0) := by
  unfold Transaction.add_input at hok
  split at hok
  · cases hok
  · rename_i scr val ins hloop
    split at hok
    · cases hok
    · rename_i hnl
      simp only [Except.ok.injEq] at hok
      subst hok
      have hle := addInputLoop_le t.owner target outs 0 val ins hloop
      simp only [Nat.zero_add] at hle
      refine ⟨by simp, by simp, by simp, ?_⟩
      intro hsum
      have hv0 : val = target := by omega
      simp [hv0, hsum]

/-- C10, witness: an exact cover (one unspent output of value `20`,
target `20`) still appends a change output, of value `0`, to the owner. -/
theorem C10_change_output_always_witness :
    exTxC10.output.dropLast = exT0.output ∧
    exTxC10.output.getLast?.map Output.pubKey = some exT0.owner ∧
    exTxC10.output.getLast?.map Output.n = some (some (exT0.output.length + 1)) ∧
    (([exU20].map UOut.value).sum = 20 → exTxC10.output.getLast?.map Output.value = some 0) :=
  C10_change_output_always exT0 [exU20] 20 exTxC10 rfl

end PyCoin
